import Mathlib

/-!
Formal model of the multi-node multi-GPU (MNMG) PCA interface declared in
cpp/include/cuml/decomposition/pca_mg.hpp (namespace ML::PCA::opg).  The
header declares fit, fit_transform, transform and inverse_transform over
row-partitioned data.  The implementation bodies are not part of the
repository snapshot, so each operation is modelled from the specification:
per-partition moments, a cross-rank aggregation, an eigen-decomposition
step treated as a black-box primitive with its documented contract,
eigenvalue post-processing, the deterministic sign convention, and the
per-partition projection.  Machine floats are modelled by exact rationals
(so statements that the spec qualifies with a floating tolerance become
exact equalities), and the square root used for singular values is either
an abstract numeric primitive or the exact real square root.
-/

namespace ML

/-- The eigen-solver selector declared in pca_mg.hpp. -/
inductive mg_solver
  | COV_EIG_DQ
  | COV_EIG_JACOBI
  | QR
  deriving DecidableEq

/-- Modelled from the spec: the solver configuration paramsPCAMG of
pca_mg.hpp.  Its full field list lives in pca.hpp, which is not part of
the snapshot; the spec lists the recognized options as the solver kind,
nComponents, the whitening flag and the Jacobi tolerance. -/
structure paramsPCAMG where
  n_components : Nat
  whiten : Bool
  algorithm : mg_solver
  tol : Rat
  deriving DecidableEq

/-- One row of the global matrix: a dense vector of column values. -/
abbrev Row (c : Nat) := Fin c → ℚ

namespace PCA

namespace opg

open Matrix

/-- Modelled from the spec: a partition (rank-local row block) is a list
of rows; the input of a fit call is the list of all partitions. -/
abbrev Parts (c : Nat) := List (List (Row c))

/-- Modelled from the spec (LocalMomentsComputer): the local column sum
of one partition.  The implementation body of the moments kernel is not
in the snapshot. -/
def localSum {c : Nat} (p : List (Row c)) (j : Fin c) : ℚ :=
  (p.map fun r => r j).sum

/-- Modelled from the spec (LocalMomentsComputer): the local raw second
moment of one partition. -/
def localM2 {c : Nat} (p : List (Row c)) (j j' : Fin c) : ℚ :=
  (p.map fun r => r j * r j').sum

/-- Modelled from the spec (GlobalAggregator): the global row count, the
sum of per-partition row counts observed by the collective reduction. -/
def globalN {c : Nat} (parts : Parts c) : Nat :=
  (parts.map List.length).sum

/-- Modelled from the spec (GlobalAggregator): the reduced global column
sums, combined from per-partition local sums. -/
def globalSum {c : Nat} (parts : Parts c) (j : Fin c) : ℚ :=
  (parts.map fun p => localSum p j).sum

/-- Modelled from the spec (GlobalAggregator): the reduced global second
moments, combined from per-partition local moments. -/
def globalM2 {c : Nat} (parts : Parts c) (j j' : Fin c) : ℚ :=
  (parts.map fun p => localM2 p j j').sum

/-- Modelled from the spec (GlobalAggregator): the global mean vector
obtained from the reduced sums. -/
def aggMean {c : Nat} (parts : Parts c) : Row c := fun j =>
  globalSum parts j / (globalN parts : ℚ)

/-- Modelled from the spec (GlobalAggregator): the global covariance
matrix obtained from the reduced moments. -/
def aggCov {c : Nat} (parts : Parts c) : Matrix (Fin c) (Fin c) ℚ :=
  Matrix.of fun j j' =>
    (globalM2 parts j j' -
      (globalN parts : ℚ) * aggMean parts j * aggMean parts j') /
      ((globalN parts : ℚ) - 1)

/-- The single-machine reference computation: the column mean of one
un-partitioned block of rows. -/
def meanOf {c : Nat} (xs : List (Row c)) : Row c := fun j =>
  localSum xs j / (xs.length : ℚ)

/-- The single-machine reference computation: the covariance of one
un-partitioned block of rows. -/
def covOf {c : Nat} (xs : List (Row c)) : Matrix (Fin c) (Fin c) ℚ :=
  Matrix.of fun j j' =>
    (localM2 xs j j' - (xs.length : ℚ) * meanOf xs j * meanOf xs j') /
      ((xs.length : ℚ) - 1)

theorem localSum_flatten {c : Nat} (parts : Parts c) (j : Fin c) :
    localSum parts.flatten j = globalSum parts j := by
  simp [localSum, globalSum, List.map_flatten, List.sum_flatten,
    List.map_map, Function.comp_def]

theorem localM2_flatten {c : Nat} (parts : Parts c) (j j' : Fin c) :
    localM2 parts.flatten j j' = globalM2 parts j j' := by
  simp [localM2, globalM2, List.map_flatten, List.sum_flatten,
    List.map_map, Function.comp_def]

theorem globalN_flatten {c : Nat} (parts : Parts c) :
    parts.flatten.length = globalN parts := by
  simp [globalN, List.length_flatten]

/-- C1: for every partitioning of a dataset the aggregated global mean
and covariance coincide exactly (exact rationals standing in for the
floating tolerance) with the single-block mean and covariance of the
un-partitioned dataset, and a partition with zero rows contributes the
identity of the reduction, leaving the aggregate unchanged. -/
theorem fit_agg_matches_single_block {c : Nat} (parts : Parts c) :
    aggMean parts = meanOf parts.flatten ∧
    aggCov parts = covOf parts.flatten ∧
    aggMean (([] : List (Row c)) :: parts) = aggMean parts ∧
    aggCov (([] : List (Row c)) :: parts) = aggCov parts := by
  have hs : ∀ j, globalSum (([] : List (Row c)) :: parts) j =
      globalSum parts j := by
    intro j; simp [globalSum, localSum]
  have hm : ∀ j j', globalM2 (([] : List (Row c)) :: parts) j j' =
      globalM2 parts j j' := by
    intro j j'; simp [globalM2, localM2]
  have hn : globalN (([] : List (Row c)) :: parts) = globalN parts := by
    simp [globalN]
  refine ⟨?_, ?_, ?_, ?_⟩
  · funext j
    simp only [aggMean, meanOf, localSum_flatten, globalN_flatten]
  · ext j j'
    simp only [aggCov, covOf, aggMean, meanOf, Matrix.of_apply,
      localSum_flatten, localM2_flatten, globalN_flatten]
  · funext j
    simp only [aggMean, hs, hn]
  · ext j j'
    simp only [aggCov, aggMean, Matrix.of_apply, hs, hm, hn]

/-- Modelled from the spec (SignConvention): the entry of largest
magnitude in a column, with the fixed tie-break that the earliest such
entry wins; the SignConvention implementation is not in the snapshot. -/
def chooseAbsMax : List ℚ → ℚ
  | [] => 0
  | x :: xs => if |chooseAbsMax xs| ≤ |x| then x else chooseAbsMax xs

theorem chooseAbsMax_neg (l : List ℚ) :
    chooseAbsMax (l.map Neg.neg) = -chooseAbsMax l := by
  induction l with
  | nil => simp [chooseAbsMax]
  | cons x xs ih =>
      simp only [List.map_cons, chooseAbsMax, ih, abs_neg]
      by_cases h : |chooseAbsMax xs| ≤ |x| <;> simp [h]

theorem abs_le_chooseAbsMax {l : List ℚ} {a : ℚ} (ha : a ∈ l) :
    |a| ≤ |chooseAbsMax l| := by
  induction l with
  | nil => cases ha
  | cons x xs ih =>
      by_cases hx : |chooseAbsMax xs| ≤ |x|
      · rcases List.mem_cons.mp ha with h | h
        · rw [h]
          simp [chooseAbsMax, hx]
        · calc |a| ≤ |chooseAbsMax xs| := ih h
            _ ≤ |x| := hx
            _ = |chooseAbsMax (x :: xs)| := by simp [chooseAbsMax, hx]
      · have hlt : |x| ≤ |chooseAbsMax xs| := le_of_lt (lt_of_not_le hx)
        rcases List.mem_cons.mp ha with h | h
        · rw [h]
          simpa [chooseAbsMax, hx] using hlt
        · simpa [chooseAbsMax, hx] using ih h

theorem eq_zero_of_chooseAbsMax_eq_zero {l : List ℚ}
    (h : chooseAbsMax l = 0) : ∀ a ∈ l, a = 0 := by
  intro a ha
  have := abs_le_chooseAbsMax ha
  rw [h, abs_zero] at this
  exact abs_eq_zero.mp (le_antisymm this (abs_nonneg a))

/-- One column of a matrix, as the list of its entries in row order. -/
def colList {c k : Nat} (M : Matrix (Fin c) (Fin k) ℚ) (j : Fin k) :
    List ℚ :=
  (List.finRange c).map fun i => M i j

/-- Scale every column j of a matrix by the factor s j. -/
def colScale {c k : Nat} (s : Fin k → ℚ) (M : Matrix (Fin c) (Fin k) ℚ) :
    Matrix (Fin c) (Fin k) ℚ :=
  Matrix.of fun i j => M i j * s j

/-- Modelled from the spec (SignConvention): the sign factor chosen for a
column, negative exactly when the entry of largest magnitude is
negative. -/
def colSign {c k : Nat} (M : Matrix (Fin c) (Fin k) ℚ) (j : Fin k) : ℚ :=
  if chooseAbsMax (colList M j) < 0 then -1 else 1

/-- Modelled from the spec (SignConvention): flip the sign of each
component so that its entry of largest magnitude is positive. -/
def signFlipMat {c k : Nat} (M : Matrix (Fin c) (Fin k) ℚ) :
    Matrix (Fin c) (Fin k) ℚ :=
  colScale (colSign M) M

theorem colList_colScale {c k : Nat} (s : Fin k → ℚ)
    (M : Matrix (Fin c) (Fin k) ℚ) (j : Fin k) :
    colList (colScale s M) j = (colList M j).map (· * s j) := by
  simp [colList, colScale, List.map_map, Function.comp_def]

theorem mem_colList {c k : Nat} {M : Matrix (Fin c) (Fin k) ℚ}
    {i : Fin c} {j : Fin k} : M i j ∈ colList M j := by
  exact List.mem_map.mpr ⟨i, List.mem_finRange i, rfl⟩

theorem colList_map_neg {c k : Nat} (M : Matrix (Fin c) (Fin k) ℚ)
    (j : Fin k) :
    (colList M j).map (· * (-1 : ℚ)) = (colList M j).map Neg.neg := by
  simp [mul_neg_one]

theorem signFlipMat_apply {c k : Nat} (M : Matrix (Fin c) (Fin k) ℚ)
    (i : Fin c) (j : Fin k) :
    signFlipMat M i j = M i j * colSign M j := rfl

theorem colScale_apply {c k : Nat} (s : Fin k → ℚ)
    (M : Matrix (Fin c) (Fin k) ℚ) (i : Fin c) (j : Fin k) :
    colScale s M i j = M i j * s j := rfl

theorem colSign_congr {c k : Nat} {A B : Matrix (Fin c) (Fin k) ℚ}
    {j : Fin k} (h : colList A j = colList B j) :
    colSign A j = colSign B j := by
  rw [colSign, colSign, h]

theorem signFlipMat_colScale {c k : Nat} (s : Fin k → ℚ)
    (M : Matrix (Fin c) (Fin k) ℚ) (hs : ∀ j, s j = 1 ∨ s j = -1) :
    signFlipMat (colScale s M) = signFlipMat M := by
  ext i j
  rw [signFlipMat_apply, signFlipMat_apply, colScale_apply]
  rcases hs j with h1 | h1
  · have hcol : colList (colScale s M) j = colList M j := by
      rw [colList_colScale, h1]
      simp
    rw [colSign_congr hcol, h1, mul_one]
  · have hcol : colList (colScale s M) j = (colList M j).map Neg.neg := by
      rw [colList_colScale, h1, colList_map_neg]
    have hneg : chooseAbsMax (colList (colScale s M) j) =
        -chooseAbsMax (colList M j) := by
      rw [hcol, chooseAbsMax_neg]
    rw [h1]
    rcases lt_trichotomy (chooseAbsMax (colList M j)) 0 with hlt | heq | hgt
    · have hA : colSign (colScale s M) j = 1 := by
        rw [colSign, hneg, if_neg (by linarith)]
      have hB : colSign M j = -1 := by
        rw [colSign, if_pos hlt]
      rw [hA, hB]
      ring
    · have hz : M i j = 0 :=
        eq_zero_of_chooseAbsMax_eq_zero heq (M i j) mem_colList
      rw [hz]
      ring
    · have hA : colSign (colScale s M) j = -1 := by
        rw [colSign, hneg, if_pos (by linarith)]
      have hB : colSign M j = 1 := by
        rw [colSign, if_neg (by linarith)]
      rw [hA, hB]
      ring

theorem chooseAbsMax_signFlipMat_nonneg {c k : Nat}
    (M : Matrix (Fin c) (Fin k) ℚ) (j : Fin k) :
    0 ≤ chooseAbsMax (colList (signFlipMat M) j) := by
  have hcol : colList (signFlipMat M) j =
      (colList M j).map (· * colSign M j) := by
    simp [signFlipMat, colList_colScale]
  by_cases h : chooseAbsMax (colList M j) < 0
  · have h1 : colSign M j = -1 := by simp [colSign, h]
    have : colList (signFlipMat M) j = (colList M j).map Neg.neg := by
      rw [hcol, h1, colList_map_neg]
    rw [this, chooseAbsMax_neg]
    linarith
  · have h1 : colSign M j = 1 := by simp [colSign, h]
    have : colList (signFlipMat M) j = colList M j := by
      rw [hcol, h1]
      simp
    rw [this]
    exact le_of_not_lt h

theorem colScale_eq_mul_diagonal {c k : Nat} (s : Fin k → ℚ)
    (M : Matrix (Fin c) (Fin k) ℚ) :
    colScale s M = M * Matrix.diagonal s := by
  ext i j
  simp [colScale, Matrix.mul_diagonal]

theorem colScale_orthonormal {c k : Nat} (s : Fin k → ℚ)
    (M : Matrix (Fin c) (Fin k) ℚ) (hs : ∀ j, s j = 1 ∨ s j = -1)
    (hM : Mᵀ * M = 1) : (colScale s M)ᵀ * colScale s M = 1 := by
  rw [colScale_eq_mul_diagonal, Matrix.transpose_mul,
    Matrix.diagonal_transpose, Matrix.mul_assoc,
    ← Matrix.mul_assoc Mᵀ M (Matrix.diagonal s), hM, Matrix.one_mul,
    Matrix.diagonal_mul_diagonal]
  have : (fun j => s j * s j) = fun _ => (1 : ℚ) := by
    funext j
    rcases hs j with h | h <;> rw [h] <;> norm_num
  rw [this, Matrix.diagonal_one]

theorem signFlipMat_orthonormal {c k : Nat}
    (M : Matrix (Fin c) (Fin k) ℚ) (hM : Mᵀ * M = 1) :
    (signFlipMat M)ᵀ * signFlipMat M = 1 := by
  refine colScale_orthonormal _ _ (fun j => ?_) hM
  by_cases h : chooseAbsMax (colList M j) < 0 <;> simp [colSign, h]

/-- Keep the first k columns of a square matrix (the truncation to
n_components). -/
def truncCols {c k : Nat} (hk : k ≤ c) (M : Matrix (Fin c) (Fin c) ℚ) :
    Matrix (Fin c) (Fin k) ℚ :=
  M.submatrix id (Fin.castLE hk)

theorem truncCols_orthonormal {c k : Nat} (hk : k ≤ c)
    (M : Matrix (Fin c) (Fin c) ℚ) (hM : Mᵀ * M = 1) :
    (truncCols hk M)ᵀ * truncCols hk M = 1 := by
  rw [truncCols, Matrix.transpose_submatrix,
    ← Matrix.submatrix_mul _ _ _ id _ Function.bijective_id, hM]
  ext i j
  simp only [Matrix.submatrix_apply, Matrix.one_apply]
  by_cases h : i = j
  · simp [h]
  · have : Fin.castLE hk i ≠ Fin.castLE hk j :=
      fun hc => h (Fin.castLE_injective hk hc)
    simp [h, this]

/-- Modelled from the spec (EigenSolverStrategy error handling): clamp
negative eigenvalues to zero; the clamping code is not in the
snapshot. -/
def clampEvs (l : List ℚ) : List ℚ :=
  l.map fun x => max x 0

/-- Modelled from the spec (EigenSolverStrategy): order eigenvalues
descending. -/
def sortDesc (l : List ℚ) : List ℚ :=
  l.insertionSort (· ≥ ·)

/-- Modelled from the spec (EigenSolverStrategy): the eigenvalue
post-processing applied to the raw eigensolver output: clamp negative
values to zero and order descending. -/
def pcaEigPost (l : List ℚ) : List ℚ :=
  sortDesc (clampEvs l)

/-- Modelled from the spec (EigenSolverStrategy): explained variance is
the leading n_components post-processed eigenvalues. -/
def explainedVarOf (evs : List ℚ) (k : Nat) : List ℚ :=
  evs.take k

/-- Modelled from the spec (EigenSolverStrategy): each explained
variance divided by the sum of all eigenvalues, truncated ones
included. -/
def varRatiosOf (evs : List ℚ) (k : Nat) : List ℚ :=
  (evs.take k).map (· / evs.sum)

/-- Modelled from the spec (EigenSolverStrategy): noise variance is the
mean of the eigenvalues beyond n_components, over the c - k truncated
directions. -/
def noiseVarOf (evs : List ℚ) (k c : Nat) : ℚ :=
  (evs.drop k).sum / ((c : ℚ) - (k : ℚ))

/-- The mathematically exact singular values derived from eigenvalues of
the covariance: sqrt of eigenvalue times (n - 1). -/
noncomputable def idealSingularVals (evs : List ℚ) (n : Nat) : List ℝ :=
  evs.map fun (q : ℚ) => Real.sqrt ((q : ℝ) * ((n : ℝ) - 1))

theorem pcaEigPost_perm (l : List ℚ) : (pcaEigPost l).Perm (clampEvs l) :=
  List.perm_insertionSort _ _

theorem pcaEigPost_nonneg (l : List ℚ) : ∀ x ∈ pcaEigPost l, 0 ≤ x := by
  intro x hx
  have hx' : x ∈ clampEvs l := (pcaEigPost_perm l).mem_iff.mp hx
  rcases List.mem_map.mp hx' with ⟨a, _, rfl⟩
  exact le_max_right a 0

theorem pcaEigPost_sorted (l : List ℚ) :
    List.Sorted (· ≥ ·) (pcaEigPost l) :=
  List.sorted_insertionSort _ _

theorem pcaEigPost_length (l : List ℚ) :
    (pcaEigPost l).length = l.length := by
  rw [(pcaEigPost_perm l).length_eq]
  simp [clampEvs]

theorem sum_map_div (l : List ℚ) (t : ℚ) :
    (l.map (· / t)).sum = l.sum / t := by
  induction l with
  | nil => simp
  | cons x xs ih => simp [ih, add_div]

theorem varRatiosOf_sum (evs : List ℚ) (k : Nat) :
    (varRatiosOf evs k).sum = (evs.take k).sum / evs.sum := by
  rw [varRatiosOf, sum_map_div]

theorem varRatiosOf_sum_le_one {evs : List ℚ} (h : ∀ x ∈ evs, 0 ≤ x)
    (k : Nat) : (varRatiosOf evs k).sum ≤ 1 := by
  rw [varRatiosOf_sum]
  by_cases ht : evs.sum = 0
  · simp [ht]
  · have hsum : 0 ≤ evs.sum := List.sum_nonneg h
    have hpos : 0 < evs.sum := lt_of_le_of_ne hsum (Ne.symm ht)
    rw [div_le_one hpos]
    have hsplit : (evs.take k).sum + (evs.drop k).sum = evs.sum :=
      List.sum_take_add_sum_drop evs k
    have hdrop : 0 ≤ (evs.drop k).sum :=
      List.sum_nonneg fun x hx => h x (List.mem_of_mem_drop hx)
    linarith

theorem varRatiosOf_sum_eq_one {evs : List ℚ} {k : Nat}
    (hk : evs.length ≤ k) (ht : evs.sum ≠ 0) :
    (varRatiosOf evs k).sum = 1 := by
  rw [varRatiosOf_sum, List.take_of_length_le hk, div_self ht]

theorem noiseVarOf_eq_zero (evs : List ℚ) (c : Nat) :
    noiseVarOf evs c c = 0 := by
  simp [noiseVarOf]

theorem idealSingularVals_nonneg (evs : List ℚ) (n : Nat) :
    ∀ s ∈ idealSingularVals evs n, 0 ≤ s := by
  intro s hs
  rcases List.mem_map.mp hs with ⟨a, _, rfl⟩
  exact Real.sqrt_nonneg _

theorem idealSingularVals_sorted {evs : List ℚ}
    (hsorted : List.Sorted (· ≥ ·) evs) {n : Nat} (hn : 1 ≤ n) :
    List.Sorted (· ≥ ·) (idealSingularVals evs n) := by
  rw [idealSingularVals]
  refine List.Pairwise.map _ (fun a b hab => ?_) hsorted
  have hcast : (b : ℝ) ≤ (a : ℝ) := by exact_mod_cast hab
  have hn' : (1 : ℝ) ≤ (n : ℝ) := by exact_mod_cast hn
  have hfac : (0 : ℝ) ≤ (n : ℝ) - 1 := by linarith
  exact Real.sqrt_le_sqrt (mul_le_mul_of_nonneg_right hcast hfac)

/-- Modelled from the spec (error taxonomy): the fatal error kinds. -/
inductive PCAError
  | configurationError
  | collectiveFailure
  deriving DecidableEq

/-- Modelled from the spec (error taxonomy): non-fatal numerical
warnings. -/
inductive PCAWarning
  | numericalWarning
  deriving DecidableEq

/-- Modelled from the spec (orchestrator): the observable stages of one
fit call, used to state when an error is raised relative to the
collective reduction barrier. -/
inductive FitStep
  | validate
  | allReduce
  | eigenSolve
  | signFix
  | writeOutputs
  deriving DecidableEq

/-- The black-box symmetric eigensolver primitive (an external
collaborator per the spec): from the global covariance it returns an
eigenvector matrix and the list of eigenvalues.  The three mg_solver
variants are three such primitives with one contract. -/
abbrev EigSolver (c : Nat) :=
  Matrix (Fin c) (Fin c) ℚ → Matrix (Fin c) (Fin c) ℚ × List ℚ

/-- The outputs a fit call writes to its caller-provided buffers. -/
structure FitOutputs (c : Nat) where
  components : Matrix (Fin c) (Fin c) ℚ
  ev_all : List ℚ
  explained_var : List ℚ
  var_ratios : List ℚ
  singular_vals : Row c
  mu : Row c
  noise_vars : ℚ
  warnings : List PCAWarning

/-- Modelled from the spec (4.1-4.4): the successful fit pipeline with a
valid configuration: aggregate moments, run the black-box eigensolver on
the global covariance, post-process eigenvalues (clamp and order), apply
the sign convention, and derive the variance outputs; sqrtFn is the
black-box scalar square-root kernel used for singular values.  The fit
implementation body is not in the snapshot. -/
def fitOutputs {c : Nat} (prms : paramsPCAMG) (eg : EigSolver c)
    (sqrtFn : ℚ → ℚ) (parts : Parts c) : FitOutputs c :=
  { components := signFlipMat (eg (aggCov parts)).1
    ev_all := pcaEigPost (eg (aggCov parts)).2
    explained_var :=
      explainedVarOf (pcaEigPost (eg (aggCov parts)).2) prms.n_components
    var_ratios :=
      varRatiosOf (pcaEigPost (eg (aggCov parts)).2) prms.n_components
    singular_vals := fun j =>
      sqrtFn ((pcaEigPost (eg (aggCov parts)).2).getD j 0 *
        ((globalN parts : ℚ) - 1))
    mu := aggMean parts
    noise_vars :=
      noiseVarOf (pcaEigPost (eg (aggCov parts)).2) prms.n_components c
    warnings :=
      if ∃ x ∈ (eg (aggCov parts)).2, x < 0 then
        [PCAWarning.numericalWarning]
      else [] }

/-- Modelled from the spec (ML::PCA::opg::fit): validate the
configuration before any communication, then block on the collective
reduction (commOk says whether every rank reaches and exits the
barrier), then run the local eigen/sign/output stages.  Returns the
stage trace together with the result. -/
def fit {c : Nat} (prms : paramsPCAMG) (eg : EigSolver c)
    (sqrtFn : ℚ → ℚ) (commOk : Bool) (parts : Parts c) :
    List FitStep × Except PCAError (FitOutputs c) :=
  if c < prms.n_components then
    ([FitStep.validate], Except.error PCAError.configurationError)
  else if commOk then
    ([FitStep.validate, FitStep.allReduce, FitStep.eigenSolve,
      FitStep.signFix, FitStep.writeOutputs],
      Except.ok (fitOutputs prms eg sqrtFn parts))
  else
    ([FitStep.validate, FitStep.allReduce],
      Except.error PCAError.collectiveFailure)

/-- Modelled from the spec (DistributedProjector): one row projected
onto the components after centering. -/
def transformRow {c k : Nat} (C : Matrix (Fin c) (Fin k) ℚ) (mu : Row c)
    (x : Row c) : Fin k → ℚ :=
  Matrix.vecMul (fun i => x i - mu i) C

/-- Modelled from the spec (DistributedProjector): one projected row
mapped back to the original space and un-centered. -/
def invRow {c k : Nat} (C : Matrix (Fin c) (Fin k) ℚ) (mu : Row c)
    (p : Fin k → ℚ) : Row c := fun i =>
  Matrix.vecMul p Cᵀ i + mu i

/-- Modelled from the spec (whitening): divide each projected component
by singular_value / sqrt(n-1); sq stands for sqrt(n-1). -/
def whitenRow {k : Nat} (sq : ℚ) (svals : Fin k → ℚ) (p : Fin k → ℚ) :
    Fin k → ℚ := fun j =>
  p j * sq / svals j

/-- Modelled from the spec (whitening): the inverse re-scaling by
singular_value / sqrt(n-1) applied before inverse projection. -/
def unwhitenRow {k : Nat} (sq : ℚ) (svals : Fin k → ℚ) (p : Fin k → ℚ) :
    Fin k → ℚ := fun j =>
  p j * svals j / sq

/-- Modelled from the spec (ML::PCA::opg::transform): each rank projects
its own partitions with the replicated components, mean and singular
values passed as arguments; purely local, no communication.  The
transform implementation body is not in the snapshot. -/
def transform {c : Nat} (prms : paramsPCAMG) (sq : ℚ)
    (C : Matrix (Fin c) (Fin c) ℚ) (svals : Row c) (mu : Row c)
    (parts : Parts c) : Parts c :=
  parts.map (List.map fun x =>
    if prms.whiten then whitenRow sq svals (transformRow C mu x)
    else transformRow C mu x)

/-- Modelled from the spec (ML::PCA::opg::inverse_transform): each rank
reconstructs its own partitions from projections, un-whitening first
when whitening was applied at transform time.  The implementation body
is not in the snapshot. -/
def inverse_transform {c : Nat} (prms : paramsPCAMG) (sq : ℚ)
    (C : Matrix (Fin c) (Fin c) ℚ) (svals : Row c) (mu : Row c)
    (pparts : Parts c) : Parts c :=
  pparts.map (List.map fun p =>
    invRow C mu (if prms.whiten then unwhitenRow sq svals p else p))

/-- Modelled from the spec (fit_transform): the projection computed in
the same pass as fit, using the distributed form X·C - mu·C with the
centering product precomputed from the aggregated mean. -/
def fusedProject {c : Nat} (prms : paramsPCAMG) (sq : ℚ)
    (out : FitOutputs c) (parts : Parts c) : Parts c :=
  parts.map (List.map fun x =>
    if prms.whiten then
      whitenRow sq out.singular_vals fun j =>
        Matrix.vecMul x out.components j -
          Matrix.vecMul out.mu out.components j
    else fun j =>
      Matrix.vecMul x out.components j -
        Matrix.vecMul out.mu out.components j)

/-- Modelled from the spec (ML::PCA::opg::fit_transform): runs the fit
stages and the projection in one call, avoiding a second full data
pass.  The implementation body is not in the snapshot. -/
def fit_transform {c : Nat} (prms : paramsPCAMG) (eg : EigSolver c)
    (sqrtFn : ℚ → ℚ) (commOk : Bool) (parts : Parts c) :
    Except PCAError (FitOutputs c × Parts c) :=
  if c < prms.n_components then
    Except.error PCAError.configurationError
  else if commOk then
    Except.ok (fitOutputs prms eg sqrtFn parts,
      fusedProject prms (sqrtFn ((globalN parts : ℚ) - 1))
        (fitOutputs prms eg sqrtFn parts) parts)
  else
    Except.error PCAError.collectiveFailure

theorem transformRow_eq_sub {c k : Nat} (C : Matrix (Fin c) (Fin k) ℚ)
    (mu x : Row c) :
    transformRow C mu x = fun j =>
      Matrix.vecMul x C j - Matrix.vecMul mu C j := by
  funext j
  have hxy : (fun i => x i - mu i) = x - mu := rfl
  rw [transformRow, hxy, Matrix.sub_vecMul]
  simp

theorem fusedProject_eq_transform {c : Nat} (prms : paramsPCAMG)
    (sq : ℚ) (out : FitOutputs c) (parts : Parts c) :
    fusedProject prms sq out parts =
      transform prms sq out.components out.singular_vals out.mu parts := by
  simp only [fusedProject, transform, transformRow_eq_sub]

theorem invRow_transformRow {c : Nat} (C : Matrix (Fin c) (Fin c) ℚ)
    (hC : Cᵀ * C = 1) (mu x : Row c) :
    invRow C mu (transformRow C mu x) = x := by
  have hCC : C * Cᵀ = 1 := Matrix.mul_eq_one_comm.mp hC
  funext i
  show Matrix.vecMul (transformRow C mu x) Cᵀ i + mu i = x i
  rw [transformRow, Matrix.vecMul_vecMul, hCC, Matrix.vecMul_one]
  simp

/-- C2: with whitening disabled, inverse_transform after transform with
the same components, mean and singular values recovers every partition
exactly when the components are a full square orthonormal matrix
(nComponents equal to the column count); and for any rectangular
component matrix the reconstruction equals the mean plus the centered
row passed through D·Dᵀ, which is the truncation characterization. -/
theorem transform_inverse_roundtrip {c : Nat} (prms : paramsPCAMG)
    (sq : ℚ) (C : Matrix (Fin c) (Fin c) ℚ) (svals mu : Row c)
    (parts : Parts c) (hw : prms.whiten = false) (hC : Cᵀ * C = 1) :
    inverse_transform prms sq C svals mu
        (transform prms sq C svals mu parts) = parts ∧
    ∀ (k : Nat) (D : Matrix (Fin c) (Fin k) ℚ) (x : Row c),
      invRow D mu (transformRow D mu x) = fun i =>
        Matrix.vecMul (fun i' => x i' - mu i') (D * Dᵀ) i + mu i := by
  constructor
  · have hrow : (fun x : Row c => invRow C mu (transformRow C mu x)) =
        id := by
      funext x
      exact invRow_transformRow C hC mu x
    simp only [transform, inverse_transform, hw, Bool.false_eq_true,
      if_false, List.map_map, Function.comp_def, hrow]
    simp
  · intro k D x
    funext i
    show Matrix.vecMul (transformRow D mu x) Dᵀ i + mu i = _
    rw [transformRow, Matrix.vecMul_vecMul]

theorem transform_inverse_roundtrip_witness :
    inverse_transform ⟨1, false, mg_solver.COV_EIG_DQ, 0⟩ 1
        (1 : Matrix (Fin 1) (Fin 1) ℚ) (fun _ => 1) (fun _ => 2)
        (transform ⟨1, false, mg_solver.COV_EIG_DQ, 0⟩ 1 1 (fun _ => 1)
          (fun _ => 2) [[fun _ => 5]]) = [[fun _ => 5]] :=
  (transform_inverse_roundtrip ⟨1, false, mg_solver.COV_EIG_DQ, 0⟩ 1 1
    (fun _ => 1) (fun _ => 2) [[fun _ => 5]] rfl (by simp)).1

/-- C3: fit_transform produces exactly the fit outputs together with the
projection that transform computes from those same outputs (components,
mean, singular values), for every partitioning, solver configuration,
whitening flag and communication outcome. -/
theorem fit_transform_eq_fit_then_transform {c : Nat}
    (prms : paramsPCAMG) (eg : EigSolver c) (sqrtFn : ℚ → ℚ)
    (commOk : Bool) (parts : Parts c) :
    fit_transform prms eg sqrtFn commOk parts =
      Except.map (fun out =>
        (out, transform prms (sqrtFn ((globalN parts : ℚ) - 1))
          out.components out.singular_vals out.mu parts))
        (fit prms eg sqrtFn commOk parts).2 := by
  by_cases h : c < prms.n_components
  · simp [fit, fit_transform, h, Except.map]
  · by_cases hcomm : commOk
    · simp [fit, fit_transform, h, hcomm, Except.map,
        fusedProject_eq_transform]
    · simp [fit, fit_transform, h, hcomm, Except.map]

/-- C4: whenever the black-box eigensolver honours its contract of
returning an orthonormal eigenvector matrix, the components a
successful fit returns (after the sign convention, truncated to any
k ≤ columns leading components) satisfy Componentsᵀ · Components = 1
exactly. -/
theorem fit_components_orthonormal {c k : Nat} (hk : k ≤ c)
    (prms : paramsPCAMG) (eg : EigSolver c) (sqrtFn : ℚ → ℚ)
    (parts : Parts c) (hvalid : ¬ c < prms.n_components)
    (hV : ((eg (aggCov parts)).1)ᵀ * (eg (aggCov parts)).1 = 1) :
    ∃ out : FitOutputs c,
      (fit prms eg sqrtFn true parts).2 = Except.ok out ∧
      (truncCols hk out.components)ᵀ * truncCols hk out.components = 1 := by
  refine ⟨fitOutputs prms eg sqrtFn parts, by simp [fit, hvalid], ?_⟩
  exact truncCols_orthonormal hk _ (signFlipMat_orthonormal _ hV)

theorem fit_components_orthonormal_witness :
    ∃ out : FitOutputs 1,
      (fit ⟨1, false, mg_solver.COV_EIG_DQ, 0⟩ (fun _ => (1, [1])) id
          true [[fun _ => 3]]).2 = Except.ok out ∧
      (truncCols (le_refl 1) out.components)ᵀ *
        truncCols (le_refl 1) out.components = 1 :=
  fit_components_orthonormal (le_refl 1) ⟨1, false, mg_solver.COV_EIG_DQ, 0⟩
    (fun _ => (1, [1])) id [[fun _ => 3]] (by decide) (by simp)

/-- C5 (amended): for every successful fit, all post-processed
eigenvalues are non-negative and ordered descending, hence the singular
values sqrt(eigenvalue·(n-1)) are non-negative and ordered descending;
each explained-variance ratio is the explained variance divided by the
sum of all eigenvalues including truncated ones, so the ratios sum to at
most 1; and when nComponents equals the column count the noise variance
is 0 and, provided the total eigenvalue sum is nonzero, the ratios sum
to exactly 1. -/
theorem fit_spectrum_contract {c : Nat} (prms : paramsPCAMG)
    (eg : EigSolver c) (sqrtFn : ℚ → ℚ) (parts : Parts c)
    (out : FitOutputs c)
    (hok : (fit prms eg sqrtFn true parts).2 = Except.ok out)
    (hn : 1 ≤ globalN parts) :
    (∀ x ∈ out.ev_all, 0 ≤ x) ∧
    List.Sorted (· ≥ ·) out.ev_all ∧
    (∀ s ∈ idealSingularVals out.ev_all (globalN parts), 0 ≤ s) ∧
    List.Sorted (· ≥ ·) (idealSingularVals out.ev_all (globalN parts)) ∧
    out.var_ratios = out.explained_var.map (· / out.ev_all.sum) ∧
    out.var_ratios.sum ≤ 1 ∧
    (prms.n_components = c → out.ev_all.length = c →
      out.noise_vars = 0 ∧
        (out.ev_all.sum ≠ 0 → out.var_ratios.sum = 1)) := by
  have hout : out = fitOutputs prms eg sqrtFn parts := by
    by_cases h : c < prms.n_components
    · simp [fit, h] at hok
    · simp [fit, h] at hok
      exact hok.symm
  subst hout
  refine ⟨pcaEigPost_nonneg _, pcaEigPost_sorted _,
    idealSingularVals_nonneg _ _,
    idealSingularVals_sorted (pcaEigPost_sorted _) hn, rfl,
    varRatiosOf_sum_le_one (pcaEigPost_nonneg _) _, ?_⟩
  intro hkc hlen
  have hlen' : (pcaEigPost (eg (aggCov parts)).2).length = c := hlen
  constructor
  · show noiseVarOf (pcaEigPost (eg (aggCov parts)).2) prms.n_components c
        = 0
    rw [hkc]
    exact noiseVarOf_eq_zero _ c
  · intro hsum
    exact varRatiosOf_sum_eq_one (le_of_eq (hlen'.trans hkc.symm)) hsum

/-- A concrete one-column solver configuration keeping one component. -/
def onePrms : paramsPCAMG := ⟨1, false, mg_solver.COV_EIG_DQ, 0⟩

/-- A concrete one-column dataset split in two one-row partitions. -/
def twoRowParts : Parts 1 := [[fun _ => 1], [fun _ => 3]]

/-- A concrete contract-honouring eigensolver on one column. -/
def oneEg : EigSolver 1 := fun _ => (1, [2])

/-- The fit outputs of the concrete one-column run. -/
def sampleOut : FitOutputs 1 := fitOutputs onePrms oneEg id twoRowParts

theorem fit_spectrum_contract_witness :
    (∀ x ∈ sampleOut.ev_all, 0 ≤ x) ∧
    List.Sorted (· ≥ ·) sampleOut.ev_all ∧
    (∀ s ∈ idealSingularVals sampleOut.ev_all (globalN twoRowParts),
      0 ≤ s) ∧
    List.Sorted (· ≥ ·)
      (idealSingularVals sampleOut.ev_all (globalN twoRowParts)) ∧
    sampleOut.var_ratios =
      sampleOut.explained_var.map (· / sampleOut.ev_all.sum) ∧
    sampleOut.var_ratios.sum ≤ 1 ∧
    (onePrms.n_components = 1 → sampleOut.ev_all.length = 1 →
      sampleOut.noise_vars = 0 ∧
        (sampleOut.ev_all.sum ≠ 0 → sampleOut.var_ratios.sum = 1)) :=
  fit_spectrum_contract onePrms oneEg id twoRowParts sampleOut rfl
    (by decide)

/-- A one-column dataset of two identical rows: all variance vanishes. -/
def constParts : Parts 1 := [[fun _ => 3, fun _ => 3]]

/-- The zero-covariance eigensolver answer for the constant dataset. -/
def zeroEg : EigSolver 1 := fun _ => (1, [0])

/-- The fit outputs of the constant-data run. -/
def zeroOut : FitOutputs 1 := fitOutputs onePrms zeroEg id constParts

/-- C5 counterexample: on a dataset of identical rows every eigenvalue
is 0, so with nComponents equal to the column count the noise variance
is 0 and the explained-variance ratios still sum to 0, not 1: the claim
that the ratios sum to exactly 1 whenever nComponents equals the column
count and the noise variance is 0 is false without the added assumption
that the total eigenvalue sum is nonzero. -/
theorem fit_ratio_sum_counterexample :
    (fit onePrms zeroEg id true constParts).2 = Except.ok zeroOut ∧
    zeroOut.ev_all.length = 1 ∧
    onePrms.n_components = 1 ∧
    zeroOut.noise_vars = 0 ∧
    zeroOut.var_ratios.sum = 0 ∧
    (0 : ℚ) ≠ 1 := by
  have hpost : pcaEigPost [(0 : ℚ)] = [0] := by
    simp [pcaEigPost, clampEvs, sortDesc, List.insertionSort]
  refine ⟨rfl, ?_, rfl, ?_, ?_, by norm_num⟩
  · show (pcaEigPost [(0 : ℚ)]).length = 1
    rw [hpost]
    rfl
  · show noiseVarOf (pcaEigPost [(0 : ℚ)]) 1 1 = 0
    exact noiseVarOf_eq_zero _ 1
  · show (varRatiosOf (pcaEigPost [(0 : ℚ)]) 1).sum = 0
    rw [hpost]
    simp [varRatiosOf]

/-- C6: the sign convention makes fit deterministic in its component
signs: two fits whose eigensolvers agree up to a per-column sign
ambiguity produce identical results, and after the sign fix every
component's entry of largest magnitude (ties broken by the earliest
entry) is non-negative. -/
theorem fit_sign_deterministic {c : Nat} (prms : paramsPCAMG)
    (eg₁ eg₂ : EigSolver c) (sqrtFn : ℚ → ℚ) (commOk : Bool)
    (parts : Parts c) (s : Fin c → ℚ)
    (hs : ∀ j, s j = 1 ∨ s j = -1)
    (h1 : (eg₂ (aggCov parts)).1 = colScale s (eg₁ (aggCov parts)).1)
    (h2 : (eg₂ (aggCov parts)).2 = (eg₁ (aggCov parts)).2) :
    fit prms eg₂ sqrtFn commOk parts = fit prms eg₁ sqrtFn commOk parts ∧
    ∀ j, 0 ≤ chooseAbsMax
      (colList (fitOutputs prms eg₁ sqrtFn parts).components j) := by
  constructor
  · have hout : fitOutputs prms eg₂ sqrtFn parts =
        fitOutputs prms eg₁ sqrtFn parts := by
      simp only [fitOutputs, h1, h2, signFlipMat_colScale s _ hs]
    simp only [fit, hout]
  · intro j
    exact chooseAbsMax_signFlipMat_nonneg _ j

/-- A concrete eigensolver with a unit eigenvector on one column. -/
def oneEgId : EigSolver 1 := fun _ => (1, [1])

/-- The same eigensolver with the eigenvector sign flipped. -/
def oneEgFlip : EigSolver 1 := fun _ => (colScale (fun _ => -1) 1, [1])

/-- A concrete one-row, one-column dataset. -/
def oneRowParts : Parts 1 := [[fun _ => 2]]

theorem fit_sign_deterministic_witness :
    fit onePrms oneEgFlip id true oneRowParts =
      fit onePrms oneEgId id true oneRowParts ∧
    ∀ j, 0 ≤ chooseAbsMax
      (colList (fitOutputs onePrms oneEgId id oneRowParts).components j) :=
  fit_sign_deterministic onePrms oneEgId oneEgFlip id true oneRowParts
    (fun _ => -1) (fun _ => Or.inr rfl) rfl rfl

/-- C7: requesting more components than there are columns is rejected as
a configuration error during validation, synchronously and before the
collective reduction step is ever entered; fit does not silently
truncate nComponents. -/
theorem fit_rejects_excess_components {c : Nat} (prms : paramsPCAMG)
    (eg : EigSolver c) (sqrtFn : ℚ → ℚ) (commOk : Bool) (parts : Parts c)
    (h : c < prms.n_components) :
    fit prms eg sqrtFn commOk parts =
      ([FitStep.validate], Except.error PCAError.configurationError) ∧
    FitStep.allReduce ∉ (fit prms eg sqrtFn commOk parts).1 := by
  have hf : fit prms eg sqrtFn commOk parts =
      ([FitStep.validate], Except.error PCAError.configurationError) := by
    simp [fit, h]
  refine ⟨hf, ?_⟩
  rw [hf]
  simp

/-- A configuration asking for two components from a single column. -/
def twoPrms : paramsPCAMG := ⟨2, false, mg_solver.COV_EIG_DQ, 0⟩

theorem fit_rejects_excess_components_witness :
    fit twoPrms oneEgId id true oneRowParts =
      ([FitStep.validate], Except.error PCAError.configurationError) ∧
    FitStep.allReduce ∉ (fit twoPrms oneEgId id true oneRowParts).1 :=
  fit_rejects_excess_components twoPrms oneEgId id true oneRowParts
    (by decide)

/-- C8: a covariance whose eigensolver reports a negative eigenvalue is
never fatal: fit still succeeds, a numerical warning is reported, and
the returned eigenvalues are all clamped to be non-negative. -/
theorem fit_clamps_indefinite_covariance {c : Nat} (prms : paramsPCAMG)
    (eg : EigSolver c) (sqrtFn : ℚ → ℚ) (parts : Parts c)
    (hvalid : ¬ c < prms.n_components)
    (hneg : ∃ x ∈ (eg (aggCov parts)).2, x < 0) :
    ∃ out : FitOutputs c,
      (fit prms eg sqrtFn true parts).2 = Except.ok out ∧
      PCAWarning.numericalWarning ∈ out.warnings ∧
      ∀ x ∈ out.ev_all, 0 ≤ x := by
  refine ⟨fitOutputs prms eg sqrtFn parts, by simp [fit, hvalid], ?_, ?_⟩
  · show PCAWarning.numericalWarning ∈
      (if ∃ x ∈ (eg (aggCov parts)).2, x < 0 then
        [PCAWarning.numericalWarning] else [])
    rw [if_pos hneg]
    simp
  · exact pcaEigPost_nonneg _

/-- A concrete eigensolver reporting a negative eigenvalue. -/
def negEg : EigSolver 1 := fun _ => (1, [-2])

theorem fit_clamps_indefinite_covariance_witness :
    ∃ out : FitOutputs 1,
      (fit onePrms negEg id true oneRowParts).2 = Except.ok out ∧
      PCAWarning.numericalWarning ∈ out.warnings ∧
      ∀ x ∈ out.ev_all, 0 ≤ x :=
  fit_clamps_indefinite_covariance onePrms negEg id oneRowParts
    (by decide) ⟨-2, by simp [negEg], by norm_num⟩

/-- Modelled from the spec (DistributedProjector error conditions):
transform validates each partition's declared row count from the
PartDescriptor before writing; a shape mismatch is a fatal
configuration error. -/
def transformChecked {c : Nat} (declared : List Nat) (prms : paramsPCAMG)
    (sq : ℚ) (C : Matrix (Fin c) (Fin c) ℚ) (svals mu : Row c)
    (parts : Parts c) : Except PCAError (Parts c) :=
  if parts.map List.length = declared then
    Except.ok (transform prms sq C svals mu parts)
  else Except.error PCAError.configurationError

/-- Modelled from the spec (DistributedProjector error conditions): the
checked inverse transform, validating declared partition shapes. -/
def inverseChecked {c : Nat} (declared : List Nat) (prms : paramsPCAMG)
    (sq : ℚ) (C : Matrix (Fin c) (Fin c) ℚ) (svals mu : Row c)
    (pparts : Parts c) : Except PCAError (Parts c) :=
  if pparts.map List.length = declared then
    Except.ok (inverse_transform prms sq C svals mu pparts)
  else Except.error PCAError.configurationError

/-- The caller-provided output buffers of the four entry points; a field
is none while nothing has been written to it. -/
structure PCABuffers (c : Nat) where
  components : Option (Matrix (Fin c) (Fin c) ℚ)
  explained_var : Option (List ℚ)
  var_ratios : Option (List ℚ)
  singular_vals : Option (Row c)
  mu : Option (Row c)
  noise_vars : Option ℚ
  trans_data : Option (Parts c)
  recon_data : Option (Parts c)

/-- Modelled from the spec (all-or-nothing outputs): fit writes its
output buffers only after the whole pipeline succeeded; a fatal error
leaves every caller buffer untouched. -/
def fitWrite {c : Nat} (prms : paramsPCAMG) (eg : EigSolver c)
    (sqrtFn : ℚ → ℚ) (commOk : Bool) (parts : Parts c)
    (b : PCABuffers c) : PCABuffers c :=
  match (fit prms eg sqrtFn commOk parts).2 with
  | Except.error _ => b
  | Except.ok out =>
      { components := some out.components
        explained_var := some out.explained_var
        var_ratios := some out.var_ratios
        singular_vals := some out.singular_vals
        mu := some out.mu
        noise_vars := some out.noise_vars
        trans_data := b.trans_data
        recon_data := b.recon_data }

/-- Modelled from the spec (all-or-nothing outputs): fit_transform
writes the fit buffers and the projected data only on success. -/
def fitTransformWrite {c : Nat} (prms : paramsPCAMG) (eg : EigSolver c)
    (sqrtFn : ℚ → ℚ) (commOk : Bool) (parts : Parts c)
    (b : PCABuffers c) : PCABuffers c :=
  match fit_transform prms eg sqrtFn commOk parts with
  | Except.error _ => b
  | Except.ok po =>
      { components := some po.1.components
        explained_var := some po.1.explained_var
        var_ratios := some po.1.var_ratios
        singular_vals := some po.1.singular_vals
        mu := some po.1.mu
        noise_vars := some po.1.noise_vars
        trans_data := some po.2
        recon_data := b.recon_data }

/-- Modelled from the spec (all-or-nothing outputs): transform writes
the projected-data buffer only when validation succeeded. -/
def transformWrite {c : Nat} (declared : List Nat) (prms : paramsPCAMG)
    (sq : ℚ) (C : Matrix (Fin c) (Fin c) ℚ) (svals mu : Row c)
    (parts : Parts c) (b : PCABuffers c) : PCABuffers c :=
  match transformChecked declared prms sq C svals mu parts with
  | Except.error _ => b
  | Except.ok t => { b with trans_data := some t }

/-- Modelled from the spec (all-or-nothing outputs): inverse_transform
writes the reconstructed-data buffer only when validation succeeded. -/
def inverseWrite {c : Nat} (declared : List Nat) (prms : paramsPCAMG)
    (sq : ℚ) (C : Matrix (Fin c) (Fin c) ℚ) (svals mu : Row c)
    (pparts : Parts c) (b : PCABuffers c) : PCABuffers c :=
  match inverseChecked declared prms sq C svals mu pparts with
  | Except.error _ => b
  | Except.ok r => { b with recon_data := some r }

/-- All fit output buffers have been written. -/
def fitBuffersDone {c : Nat} (b : PCABuffers c) : Prop :=
  b.components.isSome = true ∧ b.explained_var.isSome = true ∧
  b.var_ratios.isSome = true ∧ b.singular_vals.isSome = true ∧
  b.mu.isSome = true ∧ b.noise_vars.isSome = true

/-- C9: every entry point is all-or-nothing with respect to its
caller-provided output buffers: a call that aborts with a fatal error
(configuration error or collective failure) leaves every buffer exactly
as it was, and a successful call populates all of its outputs. -/
theorem fatal_errors_leave_buffers_untouched {c : Nat}
    (prms : paramsPCAMG) (eg : EigSolver c) (sqrtFn : ℚ → ℚ)
    (commOk : Bool) (parts pparts : Parts c) (declared : List Nat)
    (sq : ℚ) (C : Matrix (Fin c) (Fin c) ℚ) (svals mu : Row c)
    (b : PCABuffers c) :
    (∀ e, (fit prms eg sqrtFn commOk parts).2 = Except.error e →
      fitWrite prms eg sqrtFn commOk parts b = b) ∧
    (∀ out, (fit prms eg sqrtFn commOk parts).2 = Except.ok out →
      fitBuffersDone (fitWrite prms eg sqrtFn commOk parts b)) ∧
    (∀ e, fit_transform prms eg sqrtFn commOk parts = Except.error e →
      fitTransformWrite prms eg sqrtFn commOk parts b = b) ∧
    (∀ po, fit_transform prms eg sqrtFn commOk parts = Except.ok po →
      fitBuffersDone (fitTransformWrite prms eg sqrtFn commOk parts b) ∧
      (fitTransformWrite prms eg sqrtFn commOk parts b).trans_data =
        some po.2) ∧
    (∀ e, transformChecked declared prms sq C svals mu parts =
        Except.error e →
      transformWrite declared prms sq C svals mu parts b = b) ∧
    (∀ t, transformChecked declared prms sq C svals mu parts =
        Except.ok t →
      (transformWrite declared prms sq C svals mu parts b).trans_data =
        some t) ∧
    (∀ e, inverseChecked declared prms sq C svals mu pparts =
        Except.error e →
      inverseWrite declared prms sq C svals mu pparts b = b) ∧
    (∀ r, inverseChecked declared prms sq C svals mu pparts =
        Except.ok r →
      (inverseWrite declared prms sq C svals mu pparts b).recon_data =
        some r) := by
  refine ⟨?_, ?_, ?_, ?_, ?_, ?_, ?_, ?_⟩
  · intro e he
    simp only [fitWrite, he]
  · intro out hout
    simp only [fitWrite, hout]
    simp [fitBuffersDone]
  · intro e he
    simp only [fitTransformWrite, he]
  · intro po hpo
    simp only [fitTransformWrite, hpo]
    simp [fitBuffersDone]
  · intro e he
    simp only [transformWrite, he]
  · intro t ht
    simp only [transformWrite, ht]
  · intro e he
    simp only [inverseWrite, he]
  · intro r hr
    simp only [inverseWrite, hr]

/-- The empty buffer state on one column. -/
def emptyBufs : PCABuffers 1 :=
  ⟨none, none, none, none, none, none, none, none⟩

theorem fatal_errors_leave_buffers_untouched_witness :
    fitWrite twoPrms oneEgId id true oneRowParts emptyBufs = emptyBufs ∧
    fitBuffersDone (fitWrite onePrms oneEgId id true oneRowParts
      emptyBufs) ∧
    fitTransformWrite twoPrms oneEgId id true oneRowParts emptyBufs =
      emptyBufs ∧
    transformWrite [] onePrms 1 1 (fun _ => 1) (fun _ => 0) oneRowParts
      emptyBufs = emptyBufs ∧
    (transformWrite [1] onePrms 1 1 (fun _ => 1) (fun _ => 0)
      oneRowParts emptyBufs).trans_data =
      some (transform onePrms 1 1 (fun _ => 1) (fun _ => 0)
        oneRowParts) ∧
    inverseWrite [] onePrms 1 1 (fun _ => 1) (fun _ => 0) oneRowParts
      emptyBufs = emptyBufs := by
  refine ⟨?_, ?_, ?_, ?_, ?_, ?_⟩
  · exact (fatal_errors_leave_buffers_untouched twoPrms oneEgId id true
      oneRowParts oneRowParts [] 1 1 (fun _ => 1) (fun _ => 0)
      emptyBufs).1 PCAError.configurationError rfl
  · exact (fatal_errors_leave_buffers_untouched onePrms oneEgId id true
      oneRowParts oneRowParts [] 1 1 (fun _ => 1) (fun _ => 0)
      emptyBufs).2.1 (fitOutputs onePrms oneEgId id oneRowParts) rfl
  · exact (fatal_errors_leave_buffers_untouched twoPrms oneEgId id true
      oneRowParts oneRowParts [] 1 1 (fun _ => 1) (fun _ => 0)
      emptyBufs).2.2.1 PCAError.configurationError rfl
  · exact (fatal_errors_leave_buffers_untouched onePrms oneEgId id true
      oneRowParts oneRowParts [] 1 1 (fun _ => 1) (fun _ => 0)
      emptyBufs).2.2.2.2.1 PCAError.configurationError rfl
  · exact (fatal_errors_leave_buffers_untouched onePrms oneEgId id true
      oneRowParts oneRowParts [1] 1 1 (fun _ => 1) (fun _ => 0)
      emptyBufs).2.2.2.2.2.1
      (transform onePrms 1 1 (fun _ => 1) (fun _ => 0) oneRowParts) rfl
  · exact (fatal_errors_leave_buffers_untouched onePrms oneEgId id true
      oneRowParts oneRowParts [] 1 1 (fun _ => 1) (fun _ => 0)
      emptyBufs).2.2.2.2.2.2.1 PCAError.configurationError rfl

/-- C10: transform and inverse_transform are pure functions of their
explicit arguments (the model carries no state between calls, matching
the spec's no-persistence data model), and the whitening scaling is
exactly a per-component rescaling by the singular values passed in the
singular_vals parameter: the whitened transform is the unwhitened
transform post-scaled by those passed values, and replacing the
singular_vals argument by an equal value leaves the output unchanged. -/
theorem transform_uses_passed_arguments {c : Nat}
    (prmsW prmsNW : paramsPCAMG) (sq : ℚ)
    (C : Matrix (Fin c) (Fin c) ℚ) (svals svals' mu : Row c)
    (parts pparts : Parts c) (hw : prmsW.whiten = true)
    (hnw : prmsNW.whiten = false) (hsv : svals = svals') :
    transform prmsW sq C svals mu parts =
      (transform prmsNW sq C svals mu parts).map
        (List.map (whitenRow sq svals)) ∧
    inverse_transform prmsW sq C svals mu pparts =
      inverse_transform prmsNW sq C svals mu
        (pparts.map (List.map (unwhitenRow sq svals))) ∧
    transform prmsW sq C svals mu parts =
      transform prmsW sq C svals' mu parts ∧
    inverse_transform prmsW sq C svals mu pparts =
      inverse_transform prmsW sq C svals' mu pparts := by
  subst hsv
  refine ⟨?_, ?_, rfl, rfl⟩
  · simp [transform, hw, hnw, List.map_map, Function.comp_def]
  · simp [inverse_transform, hw, hnw, List.map_map, Function.comp_def]

/-- A concrete whitening configuration on one column. -/
def whitenPrms : paramsPCAMG := ⟨1, true, mg_solver.COV_EIG_DQ, 0⟩

theorem transform_uses_passed_arguments_witness :
    transform whitenPrms 1 1 (fun _ => 1) (fun _ => 0) oneRowParts =
      (transform onePrms 1 1 (fun _ => 1) (fun _ => 0)
        oneRowParts).map (List.map (whitenRow 1 (fun _ => 1))) ∧
    inverse_transform whitenPrms 1 1 (fun _ => 1) (fun _ => 0)
        oneRowParts =
      inverse_transform onePrms 1 1 (fun _ => 1) (fun _ => 0)
        (oneRowParts.map (List.map (unwhitenRow 1 (fun _ => 1)))) ∧
    transform whitenPrms 1 1 (fun _ => 1) (fun _ => 0) oneRowParts =
      transform whitenPrms 1 1 (fun _ => 1) (fun _ => 0) oneRowParts ∧
    inverse_transform whitenPrms 1 1 (fun _ => 1) (fun _ => 0)
        oneRowParts =
      inverse_transform whitenPrms 1 1 (fun _ => 1) (fun _ => 0)
        oneRowParts :=
  transform_uses_passed_arguments whitenPrms onePrms 1 1 (fun _ => 1)
    (fun _ => 1) (fun _ => 0) oneRowParts oneRowParts rfl rfl rfl

end opg

end PCA

end ML
